import Mathlib

/-!
Verification of the document-mutation core of the proposal-generation service
(`app/ppt.py`).  The embedding models character strings as `List Char`,
text frames as paragraph/run lists, and an OOXML package as an ordered
slide-id list plus a relationship table.  All definitions follow the source;
the package loader/serializer (provided by the external presentation library)
is modelled from the spec where a claim needs it.
-/

namespace Proposal

/-- Character strings are modelled as lists of characters. -/
abbrev Str := List Char

/-- One text run: a contiguous string with uniform formatting.  The `fmt`
field stands for the run-level formatting metadata (bold / italic / font
data) that the code never reads or writes. -/
structure Run where
  text : Str
  fmt : Nat
deriving DecidableEq

/-- A text frame: an ordered list of paragraphs, each an ordered list of
runs (`text_frame.paragraphs`, `paragraph.runs`). -/
structure TextFrame where
  paragraphs : List (List Run)
deriving DecidableEq

/-- A shape of a slide body; `tf = none` models a shape with
`has_text_frame == False`. -/
structure Shape where
  tf : Option TextFrame
deriving DecidableEq

/-- A slide part: its body shapes and its optional notes text frame
(`notes = none` models a slide without a notes slide or whose notes slide
has no text frame). -/
structure Slide where
  shapes : List Shape
  notes : Option TextFrame
deriving DecidableEq

/-- The package: the ordered slide-id list (each entry holding the r:id of
a slide part, as in `prs.slides._sldIdLst`) together with the relationship
table mapping r:ids to slide parts (as in `prs.part.rels`). -/
structure Package where
  sldIdLst : List Nat
  rels : List (Nat × Slide)
deriving DecidableEq

/-- Lookup in a caller-supplied mapping, modelling a Python dict built in
insertion order: the value at the first entry whose key equals `k`. -/
def dictFind {α : Type} (m : List (Str × α)) (k : Str) : Option α :=
  (m.find? (fun p => p.1 == k)).map Prod.snd

/-- Python `m.get(k, dflt)`. -/
def dictGet {α : Type} (m : List (Str × α)) (k : Str) (dflt : α) : α :=
  (dictFind m k).getD dflt

/-- Python's substring test `needle in hay` on strings. -/
def occursIn (needle : Str) : Str → Bool
  | [] => needle.isEmpty
  | c :: t => needle.isPrefixOf (c :: t) || occursIn needle t

/-- Occurrence of `needle` as a contiguous substring of `hay`. -/
def Occurs (needle hay : Str) : Prop := ∃ p q, hay = p ++ needle ++ q

/-- Python `s.replace(old, new)` (all non-overlapping occurrences, scanned
left to right), written with explicit fuel so that it is structurally
recursive and reduces in the kernel.  The fuel is always at least the
length of the remaining string, so the `0, _ :: _` arm is never reached
from `pyReplace`. -/
def pyReplaceFuel (old new : Str) : Nat → Str → Str
  | _, [] => if old.isEmpty then new else []
  | 0, c :: cs => c :: cs
  | fuel + 1, c :: cs =>
    if old.isEmpty then new ++ c :: pyReplaceFuel old new fuel cs
    else if old.isPrefixOf (c :: cs) then
      new ++ pyReplaceFuel old new fuel (cs.drop (old.length - 1))
    else c :: pyReplaceFuel old new fuel cs

/-- Python `s.replace(old, new)`. -/
def pyReplace (old new s : Str) : Str := pyReplaceFuel old new s.length s

/-- Leftmost occurrence of `old`: splits `s` as `pre ++ old ++ post` with
`pre` shortest, when an occurrence exists. -/
def splitFirst (old : Str) : Str → Option (Str × Str)
  | [] => none
  | c :: cs =>
    if old.isPrefixOf (c :: cs) then some ([], (c :: cs).drop old.length)
    else
      match splitFirst old cs with
      | some (p, q) => some (c :: p, q)
      | none => none

/-- One `(key, value)` item of the inner loop (lines 27-29 of `ppt.py`):
`if key in run.text: run.text = run.text.replace(key, value)`. -/
def applyEntry (text : Str) (kv : Str × Str) : Str :=
  if occursIn kv.1 text then pyReplace kv.1 kv.2 text else text

/-- The per-run body of `replace_placeholders_in_text` (lines 25-29): the
loop over `replacements.items()` in insertion order, guarded by
`if run.text:` (a run whose text is empty is skipped whole). -/
def replaceRun (replacements : List (Str × Str)) (r : Run) : Run :=
  if r.text.isEmpty then r
  else { r with text := replacements.foldl applyEntry r.text }

/-- Function `replace_placeholders_in_text` of `ppt.py` (lines 17-29): walks
every paragraph and every run of a text frame, rewriting run text only. -/
def replace_placeholders_in_text (tf : TextFrame) (replacements : List (Str × Str)) :
    TextFrame :=
  { paragraphs := tf.paragraphs.map (fun para => para.map (replaceRun replacements)) }

/-- A character matched by the identifier class `[a-zA-Z0-9_]` of the tag
regex in `get_slide_tags`. -/
def isTagChar (c : Char) : Bool :=
  decide ('a' ≤ c ∧ c ≤ 'z') || decide ('A' ≤ c ∧ c ≤ 'Z') ||
    decide ('0' ≤ c ∧ c ≤ '9') || c == '_'

/-- The literal opening of the tag pattern `\\[\\[tag:`. -/
def tagOpen : Str := ['[', '[', 't', 'a', 'g', ':']

/-- The literal closing `\\]\\]` of the tag pattern. -/
def tagClose : Str := [']', ']']

/-- Greedy match of `[a-zA-Z0-9_]+`: the maximal identifier-character
prefix, together with the rest of the string. -/
def takeWord : Str → Str × Str
  | [] => ([], [])
  | c :: cs =>
    if isTagChar c then
      let p := takeWord cs
      (c :: p.1, p.2)
    else ([], c :: cs)

/-- Left-to-right scan of `re.findall` for the pattern
`\\[\\[tag:([a-zA-Z0-9_]+)\\]\\]`: at each position, if the literal `[[tag:`
starts here and is followed by a nonempty maximal identifier run and then
`]]`, the identifier is emitted and scanning resumes after the match
(matches are non-overlapping); otherwise the scan advances one character.
Fuel keeps the recursion structural; it is always at least the length of
the remaining string. -/
def findTagsFuel : Nat → Str → List Str
  | _, [] => []
  | 0, _ :: _ => []
  | fuel + 1, c :: cs =>
    if tagOpen.isPrefixOf (c :: cs) then
      let w := (takeWord ((c :: cs).drop tagOpen.length)).1
      let r := (takeWord ((c :: cs).drop tagOpen.length)).2
      if w.isEmpty then findTagsFuel fuel cs
      else if tagClose.isPrefixOf r then w :: findTagsFuel fuel (r.drop tagClose.length)
      else findTagsFuel fuel cs
    else findTagsFuel fuel cs

/-- Function `get_slide_tags` of `ppt.py` (lines 31-41):
`re.findall(r"\\[\\[tag:([a-zA-Z0-9_]+)\\]\\]", notes_text)`. -/
def get_slide_tags (notes_text : Str) : List Str :=
  findTagsFuel notes_text.length notes_text

/-- The text of one paragraph: the concatenation of its run texts. -/
def paragraphText (para : List Run) : Str := (para.map Run.text).flatten

/-- The `.text` property of a text frame: the paragraph texts joined with
newline characters. -/
def tfText (tf : TextFrame) : Str :=
  List.intercalate ['\n'] (tf.paragraphs.map paragraphText)

/-- Lines 67-69 of `ppt.py`: the notes text of a slide, `""` when the slide
has no notes slide or the notes slide has no text frame. -/
def slideNotesText (s : Slide) : Str :=
  match s.notes with
  | some tf => tfText tf
  | none => []

/-- Lines 73-79 of `ppt.py`: the loop `for tag in tags: if not
slide_toggles.get(tag, True): should_remove = True; break`, i.e. a slide is
marked for removal when any of its tags is toggled off; a tag absent from
`slide_toggles` defaults to `True` (include). -/
def shouldRemove (slide_toggles : List (Str × Bool)) (tags : List Str) : Bool :=
  tags.any (fun t => !(dictGet slide_toggles t true))

/-- First-match resolution of an r:id in the relationship table. -/
def findRel (rels : List (Nat × Slide)) (rId : Nat) : Option (Nat × Slide) :=
  rels.find? (fun p => p.1 == rId)

/-- The slide part an r:id resolves to. -/
def resolveSlide (prs : Package) (rId : Nat) : Option Slide :=
  (findRel prs.rels rId).map Prod.snd

/-- The slide at position `i` of the slide-id list, resolved through the
relationship table (what `enumerate(prs.slides)` yields at index `i`). -/
def slideAt (prs : Package) (i : Nat) : Option Slide :=
  (prs.sldIdLst[i]?).bind (resolveSlide prs)

/-- The per-index removal decision of the selection pass (lines 64-82),
evaluated against the original, pre-removal package only.  `slideAt` is
always `some` on a well-formed package, so the `none` arm is unreachable
there. -/
def removeDecision (slide_toggles : List (Str × Bool)) (prs : Package) (i : Nat) : Bool :=
  match slideAt prs i with
  | some s => shouldRemove slide_toggles (get_slide_tags (slideNotesText s))
  | none => false

/-- The list `slides_to_remove` collected by the selection pass, in
ascending index order (line 82 appends while `i` increases). -/
def slidesToRemove (prs : Package) (slide_toggles : List (Str × Bool)) : List Nat :=
  (List.range prs.sldIdLst.length).filter (removeDecision slide_toggles prs)

/-- Line 87 of `ppt.py`: `prs.part.drop_rel(rId)` deletes the relationship
entry keyed by `rId`; deleting an absent key is a `KeyError`, modelled as
`none`. -/
def drop_rel (rels : List (Nat × Slide)) (rId : Nat) : Option (List (Nat × Slide)) :=
  if rels.any (fun p => p.1 == rId) then some (rels.filter (fun p => !(p.1 == rId)))
  else none

/-- One iteration of the removal loop (lines 85-88): read the r:id at slide
position `i` (an out-of-range index is an `IndexError`, modelled as `none`),
drop its relationship entry first, then delete the slide-id list entry. -/
def removeSlideAt (prs : Package) (i : Nat) : Option Package :=
  match prs.sldIdLst[i]? with
  | none => none
  | some rId =>
    match drop_rel prs.rels rId with
    | none => none
    | some rels2 => some { sldIdLst := prs.sldIdLst.eraseIdx i, rels := rels2 }

/-- The removal loop over an already-reversed index list. -/
def removeRev (prs : Package) : List Nat → Option Package
  | [] => some prs
  | i :: rest =>
    match removeSlideAt prs i with
    | some prs2 => removeRev prs2 rest
    | none => none

/-- Lines 85-88 of `ppt.py`: `for i in reversed(slides_to_remove): ...` —
the collected indices are processed from highest to lowest. -/
def removePass (prs : Package) (idxs : List Nat) : Option Package :=
  removeRev prs idxs.reverse

/-- Lines 93-96: substitution over one shape, skipped when the shape has no
text frame. -/
def substShape (replacements : List (Str × Str)) (sh : Shape) : Shape :=
  { tf := sh.tf.map (fun tf => replace_placeholders_in_text tf replacements) }

/-- Lines 91-100: substitution over one surviving slide, in its body shapes
and, when present, its notes text frame. -/
def substSlide (replacements : List (Str × Str)) (s : Slide) : Slide :=
  { shapes := s.shapes.map (substShape replacements),
    notes := s.notes.map (fun tf => replace_placeholders_in_text tf replacements) }

/-- The substitution pass (lines 91-100) runs over `prs.slides`, i.e. over
exactly the slide parts still referenced by the slide-id list; relationship
entries not referenced there are untouched. -/
def substPass (prs : Package) (replacements : List (Str × Str)) : Package :=
  { sldIdLst := prs.sldIdLst,
    rels := prs.rels.map (fun p =>
      if p.1 ∈ prs.sldIdLst then (p.1, substSlide replacements p.2) else p) }

/-- Function `generate_presentation` of `ppt.py` (lines 43-106) on the
loaded in-memory package: select slides to remove against the pre-removal
snapshot, remove them highest-index-first, then substitute placeholders in
the survivors.  `none` models an uncaught `IndexError`/`KeyError` during
removal (a programming error, unreachable on well-formed packages). -/
def generate_presentation (prs : Package) (replacements : List (Str × Str))
    (slide_toggles : List (Str × Bool)) : Option Package :=
  match removePass prs (slidesToRemove prs slide_toggles) with
  | none => none
  | some prs2 => some (substPass prs2 replacements)

/-- Number of relationship entries keyed by `rId`. -/
def countKey (rels : List (Nat × Slide)) (rId : Nat) : Nat :=
  (rels.filter (fun p => p.1 == rId)).length

/-- Well-formedness of a loaded package (spec section 3): the slide-id list
entries are pairwise distinct and each resolves to exactly one relationship
entry. -/
def WF (prs : Package) : Prop :=
  prs.sldIdLst.Nodup ∧ ∀ r ∈ prs.sldIdLst, countKey prs.rels r = 1

instance (prs : Package) : Decidable (WF prs) := by
  unfold WF
  infer_instance

/-- Modelled from the spec: the Package Loader and Serializer (spec section
4.1) live in the external presentation library, not under `src/`.  Per the
spec, loading parses a byte source and fails with `MalformedPackage` when
the bytes are not a valid zip-of-XML-parts document; a byte source is
modelled abstractly as either a well-formed in-memory package or malformed
bytes. -/
inductive ByteSource
  | valid (prs : Package)
  | malformed
deriving DecidableEq

/-- Modelled from the spec: the loader error for an invalid byte source. -/
inductive MalformedPackage
  | malformedPackage
deriving DecidableEq

/-- Modelled from the spec: `load(bytes) -> Package`, failing with
`MalformedPackage` on an invalid byte source. -/
def load : ByteSource → Except MalformedPackage Package
  | .valid prs => .ok prs
  | .malformed => .error .malformedPackage

/-- Failure of a whole generation request: either the loader error,
propagated, or an internal invariant violation (a programming error)
during removal. -/
inductive GenFailure
  | malformed (e : MalformedPackage)
  | invariantViolation
deriving DecidableEq

/-- End-to-end `generate` (spec section 4.6) on a byte source: load, then
run `generate_presentation`; an exception anywhere aborts the request with
no output, exactly once through the pipeline otherwise. -/
def generate_from_bytes (src : ByteSource) (replacements : List (Str × Str))
    (slide_toggles : List (Str × Bool)) : Except GenFailure Package :=
  match load src with
  | .error e => .error (.malformed e)
  | .ok prs =>
    match generate_presentation prs replacements slide_toggles with
    | none => .error .invariantViolation
    | some out => .ok out

/-- Example slide 1 of the spec section-8 scenario: body text containing
the `{COMPANY_NAME}` placeholder, no notes. -/
def exSlide1 : Slide :=
  { shapes := [{ tf := some { paragraphs :=
      [[{ text := "Hello {COMPANY_NAME}".toList, fmt := 1 }]] } }],
    notes := none }

/-- Example slide 2: notes carrying the control tag `about_x`. -/
def exSlide2 : Slide :=
  { shapes := [],
    notes := some { paragraphs := [[{ text := "[[tag:about_x]]".toList, fmt := 2 }]] } }

/-- Example slide 3: one shape without a text frame, tag-free notes. -/
def exSlide3 : Slide :=
  { shapes := [{ tf := none }],
    notes := some { paragraphs := [[{ text := "bye".toList, fmt := 3 }]] } }

/-- Example template package with three slides. -/
def exPrs : Package :=
  { sldIdLst := [10, 20, 30],
    rels := [(10, exSlide1), (20, exSlide2), (30, exSlide3)] }

/-- Example toggle map excluding the `about_x` tag. -/
def exToggles : List (Str × Bool) := [("about_x".toList, false)]

/-- Example replacement map. -/
def exRepl : List (Str × Str) := [("{COMPANY_NAME}".toList, "Acme".toList)]

/-- The package that `generate_presentation` produces from the example:
slide 2 removed, the placeholder in slide 1 substituted. -/
def exOut : Package :=
  { sldIdLst := [10, 30],
    rels := [(10, { shapes := [{ tf := some { paragraphs :=
        [[{ text := "Hello Acme".toList, fmt := 1 }]] } }], notes := none }),
      (30, exSlide3)] }

-- Theorems

theorem isPrefixOf_iff_ex {a s : Str} : a.isPrefixOf s = true ↔ ∃ t, s = a ++ t := by
  induction a generalizing s with
  | nil => simp [List.isPrefixOf]
  | cons c cs ih =>
    cases s with
    | nil => simp [List.isPrefixOf]
    | cons d ds =>
      simp only [List.isPrefixOf, Bool.and_eq_true, beq_iff_eq, ih, List.cons_append,
        List.cons.injEq]
      constructor
      · rintro ⟨rfl, t, rfl⟩; exact ⟨t, rfl, rfl⟩
      · rintro ⟨t, rfl, rfl⟩; exact ⟨rfl, t, rfl⟩

theorem occursIn_iff {needle hay : Str} : occursIn needle hay = true ↔ Occurs needle hay := by
  induction hay with
  | nil =>
    simp only [occursIn, List.isEmpty_iff, Occurs]
    constructor
    · rintro rfl; exact ⟨[], [], rfl⟩
    · rintro ⟨p, q, h⟩
      rcases List.append_eq_nil.mp h.symm with ⟨h1, h2⟩
      exact (List.append_eq_nil.mp h1).2
  | cons c t ih =>
    simp only [occursIn, Bool.or_eq_true, isPrefixOf_iff_ex, ih, Occurs]
    constructor
    · rintro (⟨u, hu⟩ | ⟨p, q, hpq⟩)
      · exact ⟨[], u, by simpa using hu⟩
      · exact ⟨c :: p, q, by simp [hpq]⟩
    · rintro ⟨p, q, hpq⟩
      cases p with
      | nil => exact Or.inl ⟨q, by simpa using hpq⟩
      | cons d ds =>
        right
        simp only [List.cons_append, List.cons.injEq] at hpq
        exact ⟨ds, q, hpq.2⟩

theorem pyReplaceFuel_nil (old new : Str) (f : Nat) :
    pyReplaceFuel old new f [] = if old.isEmpty then new else [] := by
  cases f <;> rfl

theorem pyReplaceFuel_irrel (old new : Str) :
    ∀ f₁ : Nat, ∀ s : Str, ∀ f₂ : Nat, s.length ≤ f₁ → s.length ≤ f₂ →
      pyReplaceFuel old new f₁ s = pyReplaceFuel old new f₂ s := by
  intro f₁
  induction f₁ with
  | zero =>
    intro s f₂ h1 _
    rw [List.length_eq_zero.mp (Nat.le_zero.mp h1)]
    rw [pyReplaceFuel_nil, pyReplaceFuel_nil]
  | succ a ih =>
    intro s f₂ h1 h2
    cases s with
    | nil => rw [pyReplaceFuel_nil, pyReplaceFuel_nil]
    | cons c cs =>
      cases f₂ with
      | zero => simp at h2
      | succ b =>
        simp only [List.length_cons, Nat.succ_le_succ_iff] at h1 h2
        show (if old.isEmpty then new ++ c :: pyReplaceFuel old new a cs
            else if old.isPrefixOf (c :: cs) then
              new ++ pyReplaceFuel old new a (cs.drop (old.length - 1))
            else c :: pyReplaceFuel old new a cs) =
          (if old.isEmpty then new ++ c :: pyReplaceFuel old new b cs
            else if old.isPrefixOf (c :: cs) then
              new ++ pyReplaceFuel old new b (cs.drop (old.length - 1))
            else c :: pyReplaceFuel old new b cs)
        have hdrop : (cs.drop (old.length - 1)).length ≤ cs.length := by
          rw [List.length_drop]; omega
        rw [ih cs b h1 h2, ih (cs.drop (old.length - 1)) b (le_trans hdrop h1)
          (le_trans hdrop h2)]

theorem pyReplace_nil (old new : Str) :
    pyReplace old new [] = if old.isEmpty then new else [] := rfl

theorem pyReplace_cons (old new : Str) (c : Char) (cs : Str) :
    pyReplace old new (c :: cs) =
      (if old.isEmpty then new ++ c :: pyReplace old new cs
        else if old.isPrefixOf (c :: cs) then
          new ++ pyReplace old new (cs.drop (old.length - 1))
        else c :: pyReplace old new cs) := by
  show pyReplaceFuel old new (cs.length + 1) (c :: cs) = _
  have hdrop : (cs.drop (old.length - 1)).length ≤ cs.length := by
    rw [List.length_drop]; omega
  show (if old.isEmpty then new ++ c :: pyReplaceFuel old new cs.length cs
      else if old.isPrefixOf (c :: cs) then
        new ++ pyReplaceFuel old new cs.length (cs.drop (old.length - 1))
      else c :: pyReplaceFuel old new cs.length cs) = _
  rw [pyReplaceFuel_irrel old new cs.length (cs.drop (old.length - 1))
    (cs.drop (old.length - 1)).length hdrop le_rfl]
  rfl

theorem isEmpty_false_of_ne_nil {old : Str} (hne : old ≠ []) : old.isEmpty = false := by
  cases old with
  | nil => exact absurd rfl hne
  | cons _ _ => rfl

theorem splitFirst_none_iff {old : Str} (hne : old ≠ []) :
    ∀ s : Str, splitFirst old s = none ↔ occursIn old s = false := by
  intro s
  induction s with
  | nil => simp [splitFirst, occursIn, isEmpty_false_of_ne_nil hne]
  | cons c cs ih =>
    by_cases hp : old.isPrefixOf (c :: cs)
    · simp [splitFirst, occursIn, hp]
    · have hpb : old.isPrefixOf (c :: cs) = false := Bool.eq_false_iff.mpr hp
      rw [splitFirst, if_neg hp]
      cases hsf : splitFirst old cs with
      | some pq =>
        have hoc : occursIn old cs = true := by
          cases hoc : occursIn old cs with
          | false => exact absurd (ih.mpr hoc) (by simp [hsf])
          | true => rfl
        cases pq with
        | mk p q => simp [occursIn, hoc]
      | none => simp [occursIn, hpb, ih.mp hsf]

theorem splitFirst_some {old : Str} :
    ∀ s pre post : Str, splitFirst old s = some (pre, post) →
      s = pre ++ old ++ post ∧ ∀ p q : Str, s = p ++ old ++ q → pre.length ≤ p.length := by
  intro s
  induction s with
  | nil => intro pre post h; simp [splitFirst] at h
  | cons c cs ih =>
    intro pre post h
    by_cases hp : old.isPrefixOf (c :: cs)
    · rw [splitFirst, if_pos hp] at h
      rcases isPrefixOf_iff_ex.mp hp with ⟨t, ht⟩
      simp only [Option.some.injEq, Prod.mk.injEq] at h
      obtain ⟨hpre, hpost⟩ := h
      subst hpre
      subst hpost
      refine ⟨?_, fun p q _ => Nat.zero_le _⟩
      rw [List.nil_append, ht, List.drop_left]
    · rw [splitFirst, if_neg hp] at h
      cases hsf : splitFirst old cs with
      | none => rw [hsf] at h; simp at h
      | some pq =>
        cases pq with
        | mk p q =>
          rw [hsf] at h
          simp only [Option.some.injEq, Prod.mk.injEq] at h
          obtain ⟨hpre, hpost⟩ := h
          subst hpre
          subst hpost
          obtain ⟨hs, hmin⟩ := ih p q hsf
          constructor
          · simp only [List.cons_append]
            rw [← hs]
          · intro p' q' hpq
            cases p' with
            | nil =>
              exfalso
              rw [List.nil_append] at hpq
              exact hp (isPrefixOf_iff_ex.mpr ⟨q', hpq⟩)
            | cons d ds =>
              simp only [List.cons_append, List.cons.injEq] at hpq
              simp only [List.length_cons]
              exact Nat.succ_le_succ (hmin ds q' hpq.2)

theorem pyReplace_no_occurrence {old new : Str} :
    ∀ s : Str, occursIn old s = false → pyReplace old new s = s := by
  intro s
  induction s with
  | nil =>
    intro h
    simp only [occursIn] at h
    rw [pyReplace_nil]
    simp [h]
  | cons c cs ih =>
    intro h
    simp only [occursIn, Bool.or_eq_false_iff] at h
    obtain ⟨h1, h2⟩ := h
    have hemp : old.isEmpty = false := by
      cases old with
      | nil => simp [List.isPrefixOf] at h1
      | cons _ _ => rfl
    rw [pyReplace_cons]
    simp [hemp, h1, ih h2]

theorem pyReplace_splitFirst {old new : Str} (hne : old ≠ []) :
    ∀ s pre post : Str, splitFirst old s = some (pre, post) →
      pyReplace old new s = pre ++ new ++ pyReplace old new post := by
  intro s
  induction s with
  | nil => intro pre post h; simp [splitFirst] at h
  | cons c cs ih =>
    intro pre post h
    have hemp : old.isEmpty = false := isEmpty_false_of_ne_nil hne
    by_cases hp : old.isPrefixOf (c :: cs)
    · rw [splitFirst, if_pos hp] at h
      simp only [Option.some.injEq, Prod.mk.injEq] at h
      obtain ⟨hpre, hpost⟩ := h
      subst hpre
      subst hpost
      rw [pyReplace_cons]
      simp only [hemp, Bool.false_eq_true, if_false, if_pos hp, List.nil_append]
      have hdrop : (c :: cs).drop old.length = cs.drop (old.length - 1) := by
        cases old with
        | nil => exact absurd rfl hne
        | cons o os => simp
      rw [hdrop]
    · rw [splitFirst, if_neg hp] at h
      cases hsf : splitFirst old cs with
      | none => rw [hsf] at h; simp at h
      | some pq =>
        cases pq with
        | mk p q =>
          rw [hsf] at h
          simp only [Option.some.injEq, Prod.mk.injEq] at h
          obtain ⟨hpre, hpost⟩ := h
          subst hpre
          subst hpost
          rw [pyReplace_cons]
          simp only [hemp, Bool.false_eq_true, if_false, if_neg hp]
          rw [ih p q hsf]
          simp [List.cons_append]

theorem takeWord_append (l : Str) : (takeWord l).1 ++ (takeWord l).2 = l := by
  induction l with
  | nil => rfl
  | cons c cs ih =>
    by_cases h : isTagChar c
    · simp only [takeWord, if_pos h, List.cons_append]
      rw [ih]
    · simp [takeWord, if_neg h]

theorem takeWord_fst_tagChar (l : Str) : ∀ c ∈ (takeWord l).1, isTagChar c = true := by
  induction l with
  | nil => intro c hc; simp [takeWord] at hc
  | cons d ds ih =>
    intro c hc
    by_cases h : isTagChar d
    · simp only [takeWord, if_pos h, List.mem_cons] at hc
      rcases hc with rfl | hc
      · exact h
      · exact ih c hc
    · simp [takeWord, if_neg h] at hc

theorem takeWord_snd_head (l : Str) :
    ∀ d t, (takeWord l).2 = d :: t → isTagChar d = false := by
  induction l with
  | nil => intro d t h; simp [takeWord] at h
  | cons c cs ih =>
    intro d t h
    by_cases hc : isTagChar c
    · simp only [takeWord, if_pos hc] at h
      exact ih d t h
    · simp only [takeWord, if_neg hc, List.cons.injEq] at h
      rw [← h.1]
      exact Bool.eq_false_iff.mpr hc

theorem takeWord_snd_length (l : Str) : (takeWord l).2.length ≤ l.length := by
  conv_rhs => rw [← takeWord_append l]
  rw [List.length_append]
  omega

/-- takeWord on an identifier run followed by a non-identifier character
returns exactly that run. -/
theorem takeWord_exact (w : Str) (hw : ∀ c ∈ w, isTagChar c = true) :
    ∀ rest : Str, (∀ d t, rest = d :: t → isTagChar d = false) →
      takeWord (w ++ rest) = (w, rest) := by
  induction w with
  | nil =>
    intro rest hrest
    cases rest with
    | nil => rfl
    | cons d t =>
      have := hrest d t rfl
      simp [takeWord, this]
  | cons c cs ih =>
    intro rest hrest
    have hc : isTagChar c = true := hw c (List.mem_cons_self c cs)
    simp only [List.cons_append, takeWord, hc, if_true, List.append_eq]
    rw [ih (fun x hx => hw x (List.mem_cons_of_mem c hx)) rest hrest]

theorem findTagsFuel_nil (f : Nat) : findTagsFuel f [] = [] := by
  cases f <;> rfl

theorem findTagsFuel_irrel :
    ∀ f₁ : Nat, ∀ s : Str, ∀ f₂ : Nat, s.length ≤ f₁ → s.length ≤ f₂ →
      findTagsFuel f₁ s = findTagsFuel f₂ s := by
  intro f₁
  induction f₁ with
  | zero =>
    intro s f₂ h1 _
    rw [List.length_eq_zero.mp (Nat.le_zero.mp h1)]
    rw [findTagsFuel_nil, findTagsFuel_nil]
  | succ a ih =>
    intro s f₂ h1 h2
    cases s with
    | nil => rw [findTagsFuel_nil, findTagsFuel_nil]
    | cons c cs =>
      cases f₂ with
      | zero => simp at h2
      | succ b =>
        simp only [List.length_cons, Nat.succ_le_succ_iff] at h1 h2
        show (if tagOpen.isPrefixOf (c :: cs) then
            let w := (takeWord ((c :: cs).drop tagOpen.length)).1
            let r := (takeWord ((c :: cs).drop tagOpen.length)).2
            if w.isEmpty then findTagsFuel a cs
            else if tagClose.isPrefixOf r then w :: findTagsFuel a (r.drop tagClose.length)
            else findTagsFuel a cs
          else findTagsFuel a cs) =
          (if tagOpen.isPrefixOf (c :: cs) then
            let w := (takeWord ((c :: cs).drop tagOpen.length)).1
            let r := (takeWord ((c :: cs).drop tagOpen.length)).2
            if w.isEmpty then findTagsFuel b cs
            else if tagClose.isPrefixOf r then w :: findTagsFuel b (r.drop tagClose.length)
            else findTagsFuel b cs
          else findTagsFuel b cs)
        have hr : ((takeWord ((c :: cs).drop tagOpen.length)).2.drop tagClose.length).length
            ≤ cs.length := by
          have h3 : ((c :: cs).drop tagOpen.length).length ≤ cs.length := by
            rw [List.length_drop]
            simp only [List.length_cons, tagOpen]
            omega
          have h4 := takeWord_snd_length ((c :: cs).drop tagOpen.length)
          rw [List.length_drop]
          omega
        simp only []
        rw [ih cs b h1 h2,
          ih ((takeWord ((c :: cs).drop tagOpen.length)).2.drop tagClose.length) b
            (le_trans hr h1) (le_trans hr h2)]

theorem get_slide_tags_nil : get_slide_tags [] = [] := rfl

theorem get_slide_tags_cons (c : Char) (cs : Str) :
    get_slide_tags (c :: cs) =
      (if tagOpen.isPrefixOf (c :: cs) then
        let w := (takeWord ((c :: cs).drop tagOpen.length)).1
        let r := (takeWord ((c :: cs).drop tagOpen.length)).2
        if w.isEmpty then get_slide_tags cs
        else if tagClose.isPrefixOf r then w :: get_slide_tags (r.drop tagClose.length)
        else get_slide_tags cs
      else get_slide_tags cs) := by
  show findTagsFuel (cs.length + 1) (c :: cs) = _
  show (if tagOpen.isPrefixOf (c :: cs) then
      let w := (takeWord ((c :: cs).drop tagOpen.length)).1
      let r := (takeWord ((c :: cs).drop tagOpen.length)).2
      if w.isEmpty then findTagsFuel cs.length cs
      else if tagClose.isPrefixOf r then w :: findTagsFuel cs.length (r.drop tagClose.length)
      else findTagsFuel cs.length cs
    else findTagsFuel cs.length cs) = _
  have hr : ((takeWord ((c :: cs).drop tagOpen.length)).2.drop tagClose.length).length
      ≤ cs.length := by
    have h3 : ((c :: cs).drop tagOpen.length).length ≤ cs.length := by
      rw [List.length_drop]
      simp only [List.length_cons, tagOpen]
      omega
    have h4 := takeWord_snd_length ((c :: cs).drop tagOpen.length)
    rw [List.length_drop]
    omega
  simp only []
  rw [findTagsFuel_irrel cs.length
    ((takeWord ((c :: cs).drop tagOpen.length)).2.drop tagClose.length) _ hr le_rfl]
  rfl

theorem any_key_of_countKey_one {rels : List (Nat × Slide)} {r : Nat}
    (h : countKey rels r = 1) : rels.any (fun p => p.1 == r) = true := by
  rw [List.any_eq_true]
  unfold countKey at h
  cases hf : rels.filter (fun p => p.1 == r) with
  | nil => rw [hf] at h; simp at h
  | cons e es =>
    have he : e ∈ rels.filter (fun p => p.1 == r) := by
      rw [hf]; exact List.mem_cons_self e es
    rw [List.mem_filter] at he
    exact ⟨e, he.1, he.2⟩

theorem countKey_filter_ne {rels : List (Nat × Slide)} {r rId : Nat} (hne : r ≠ rId) :
    countKey (rels.filter (fun p => !(p.1 == rId))) r = countKey rels r := by
  unfold countKey
  induction rels with
  | nil => rfl
  | cons e es ih =>
    by_cases h1 : e.1 = rId
    · have hb1 : (e.1 == rId) = true := beq_iff_eq.mpr h1
      have hb2 : (e.1 == r) = false := by
        rw [beq_eq_false_iff_ne, h1]
        exact fun hh => hne hh.symm
      simp only [List.filter_cons, hb1, Bool.not_true, Bool.false_eq_true, if_false, hb2, ih]
    · have hb1 : (e.1 == rId) = false := beq_eq_false_iff_ne.mpr h1
      by_cases h2 : e.1 = r
      · have hb2 : (e.1 == r) = true := beq_iff_eq.mpr h2
        simp only [List.filter_cons, hb1, Bool.not_false, if_true, hb2, List.length_cons, ih]
      · have hb2 : (e.1 == r) = false := beq_eq_false_iff_ne.mpr h2
        simp only [List.filter_cons, hb1, Bool.not_false, if_true, hb2, Bool.false_eq_true,
          if_false, ih]

theorem findRel_filter_ne {rels : List (Nat × Slide)} {r rId : Nat} (hne : r ≠ rId) :
    findRel (rels.filter (fun p => !(p.1 == rId))) r = findRel rels r := by
  unfold findRel
  induction rels with
  | nil => rfl
  | cons e es ih =>
    by_cases h1 : e.1 = rId
    · have hb1 : (e.1 == rId) = true := beq_iff_eq.mpr h1
      have hb2 : (e.1 == r) = false := by
        rw [beq_eq_false_iff_ne, h1]
        exact fun hh => hne hh.symm
      simp only [List.filter_cons, hb1, Bool.not_true, Bool.false_eq_true, if_false,
        List.find?_cons, hb2, ih]
    · have hb1 : (e.1 == rId) = false := beq_eq_false_iff_ne.mpr h1
      cases hb2 : (e.1 == r) with
      | true =>
        simp only [List.filter_cons, hb1, Bool.not_false, if_true, List.find?_cons, hb2]
      | false =>
        simp only [List.filter_cons, hb1, Bool.not_false, if_true, List.find?_cons, hb2, ih]

theorem eraseIdx_ne_of_nodup {l : List Nat} {i : Nat} {x : Nat}
    (hnd : l.Nodup) (hx : l[i]? = some x) : ∀ r ∈ l.eraseIdx i, r ≠ x := by
  intro r hr hrx
  subst hrx
  rw [List.mem_eraseIdx_iff_getElem?] at hr
  obtain ⟨j, hji, hj⟩ := hr
  have hjlen : j < l.length := (List.getElem?_eq_some.mp hj).1
  exact hji (List.getElem?_inj hjlen hnd (hj.trans hx.symm))

theorem removeRev_ok :
    ∀ (d : List Nat) (prs : Package),
      d.Pairwise (fun a b => a > b) →
      (∀ i ∈ d, i < prs.sldIdLst.length) →
      prs.sldIdLst.Nodup →
      (∀ r ∈ prs.sldIdLst, countKey prs.rels r = 1) →
      ∃ out : Package, removeRev prs d = some out ∧
        out.sldIdLst.length = prs.sldIdLst.length - d.length ∧
        out.sldIdLst.Sublist prs.sldIdLst ∧
        out.sldIdLst.Nodup ∧
        (∀ r ∈ out.sldIdLst, countKey out.rels r = 1) ∧
        (∀ r ∈ out.sldIdLst, findRel out.rels r = findRel prs.rels r) := by
  intro d
  induction d with
  | nil =>
    intro prs _ _ hnd hcnt
    exact ⟨prs, rfl, by simp, List.Sublist.refl _, hnd, hcnt, fun r _ => rfl⟩
  | cons i rest ih =>
    intro prs hpw hb hnd hcnt
    have hi : i < prs.sldIdLst.length := hb i (List.mem_cons_self i rest)
    obtain ⟨rId, hrId⟩ : ∃ x, prs.sldIdLst[i]? = some x :=
      ⟨_, List.getElem?_eq_getElem hi⟩
    have hrmem : rId ∈ prs.sldIdLst := by
      obtain ⟨h, hh⟩ := List.getElem?_eq_some.mp hrId
      rw [← hh]
      exact List.getElem_mem h
    have hany : prs.rels.any (fun p => p.1 == rId) = true :=
      any_key_of_countKey_one (hcnt rId hrmem)
    have hdrop : drop_rel prs.rels rId =
        some (prs.rels.filter (fun p => !(p.1 == rId))) := by
      unfold drop_rel
      rw [hany]
      rfl
    have hstep : removeSlideAt prs i =
        some { sldIdLst := prs.sldIdLst.eraseIdx i,
               rels := prs.rels.filter (fun p => !(p.1 == rId)) } := by
      unfold removeSlideAt
      rw [hrId]
      show (match drop_rel prs.rels rId with
        | none => none
        | some rels2 =>
          some ({ sldIdLst := prs.sldIdLst.eraseIdx i, rels := rels2 } : Package)) = _
      rw [hdrop]
    set prs2 : Package :=
      { sldIdLst := prs.sldIdLst.eraseIdx i,
        rels := prs.rels.filter (fun p => !(p.1 == rId)) } with hprs2
    have hlen2 : prs2.sldIdLst.length = prs.sldIdLst.length - 1 := by
      rw [hprs2]
      simp only [List.length_eraseIdx, hi, if_true]
    have hsub2 : prs2.sldIdLst.Sublist prs.sldIdLst := List.eraseIdx_sublist _ i
    have hnd2 : prs2.sldIdLst.Nodup := hsub2.nodup hnd
    have hne_r : ∀ r ∈ prs2.sldIdLst, r ≠ rId := eraseIdx_ne_of_nodup hnd hrId
    have hcnt2 : ∀ r ∈ prs2.sldIdLst, countKey prs2.rels r = 1 := by
      intro r hr
      rw [hprs2]
      show countKey (prs.rels.filter (fun p => !(p.1 == rId))) r = 1
      rw [countKey_filter_ne (hne_r r hr)]
      exact hcnt r (hsub2.subset hr)
    have hfind2 : ∀ r ∈ prs2.sldIdLst, findRel prs2.rels r = findRel prs.rels r := by
      intro r hr
      exact findRel_filter_ne (hne_r r hr)
    have hb2 : ∀ j ∈ rest, j < prs2.sldIdLst.length := by
      intro j hj
      have hji : j < i := by
        have := (List.pairwise_cons.mp hpw).1 j hj
        omega
      rw [hlen2]
      omega
    obtain ⟨out, hout, hlen, hsub, hnd3, hcnt3, hfind3⟩ :=
      ih prs2 (List.pairwise_cons.mp hpw).2 hb2 hnd2 hcnt2
    refine ⟨out, ?_, ?_, hsub.trans hsub2, hnd3, hcnt3, ?_⟩
    · show (match removeSlideAt prs i with
        | some prs3 => removeRev prs3 rest
        | none => none) = some out
      rw [hstep]
      exact hout
    · rw [hlen, hlen2, List.length_cons]
      omega
    · intro r hr
      rw [hfind3 r hr, hfind2 r (hsub.subset hr)]

theorem countKey_map_fst_preserving (rels : List (Nat × Slide))
    (f : Nat × Slide → Nat × Slide) (hf : ∀ p, (f p).1 = p.1) (r : Nat) :
    countKey (rels.map f) r = countKey rels r := by
  unfold countKey
  induction rels with
  | nil => rfl
  | cons e es ih =>
    simp only [List.map_cons, List.filter_cons, hf e]
    cases hb : (e.1 == r) with
    | true => simp only [if_true, List.length_cons, ih]
    | false => simp only [Bool.false_eq_true, if_false, ih]

theorem findRel_map_fst_preserving (rels : List (Nat × Slide))
    (f : Nat × Slide → Nat × Slide) (hf : ∀ p, (f p).1 = p.1) (r : Nat) :
    findRel (rels.map f) r = (findRel rels r).map f := by
  unfold findRel
  induction rels with
  | nil => rfl
  | cons e es ih =>
    simp only [List.map_cons, List.find?_cons, hf e]
    cases hb : (e.1 == r) with
    | true => simp
    | false => simpa using ih

theorem substPass_fst_preserving (prs : Package) (repl : List (Str × Str)) :
    ∀ p : Nat × Slide,
      ((fun p => if p.1 ∈ prs.sldIdLst then (p.1, substSlide repl p.2) else p) p).1 = p.1 := by
  intro p
  by_cases h : p.1 ∈ prs.sldIdLst <;> simp [h]

theorem substPass_sldIdLst (prs : Package) (repl : List (Str × Str)) :
    (substPass prs repl).sldIdLst = prs.sldIdLst := rfl

theorem countKey_substPass (prs : Package) (repl : List (Str × Str)) (r : Nat) :
    countKey (substPass prs repl).rels r = countKey prs.rels r :=
  countKey_map_fst_preserving prs.rels _ (substPass_fst_preserving prs repl) r

theorem findRel_substPass (prs : Package) (repl : List (Str × Str)) (r : Nat) :
    findRel (substPass prs repl).rels r =
      (findRel prs.rels r).map
        (fun p => if p.1 ∈ prs.sldIdLst then (p.1, substSlide repl p.2) else p) :=
  findRel_map_fst_preserving prs.rels _ (substPass_fst_preserving prs repl) r

theorem slidesToRemove_sorted (prs : Package) (slide_toggles : List (Str × Bool)) :
    (slidesToRemove prs slide_toggles).Pairwise (fun a b => a < b) :=
  List.Pairwise.sublist (List.filter_sublist _) (List.pairwise_lt_range _)

theorem slidesToRemove_lt (prs : Package) (slide_toggles : List (Str × Bool)) :
    ∀ i ∈ slidesToRemove prs slide_toggles, i < prs.sldIdLst.length := by
  intro i hi
  unfold slidesToRemove at hi
  rw [List.mem_filter] at hi
  exact List.mem_range.mp hi.1

theorem slidesToRemove_mem (prs : Package) (slide_toggles : List (Str × Bool)) (i : Nat) :
    i ∈ slidesToRemove prs slide_toggles ↔
      i < prs.sldIdLst.length ∧ removeDecision slide_toggles prs i = true := by
  unfold slidesToRemove
  rw [List.mem_filter, List.mem_range]

theorem slidesToRemove_rev_sorted (prs : Package) (slide_toggles : List (Str × Bool)) :
    (slidesToRemove prs slide_toggles).reverse.Pairwise (fun a b => a > b) :=
  List.pairwise_reverse.mpr (slidesToRemove_sorted prs slide_toggles)

theorem removePass_ok (prs : Package) (slide_toggles : List (Str × Bool)) (hwf : WF prs) :
    ∃ mid : Package, removePass prs (slidesToRemove prs slide_toggles) = some mid ∧
      mid.sldIdLst.length =
        prs.sldIdLst.length - (slidesToRemove prs slide_toggles).length ∧
      mid.sldIdLst.Sublist prs.sldIdLst ∧
      mid.sldIdLst.Nodup ∧
      (∀ r ∈ mid.sldIdLst, countKey mid.rels r = 1) ∧
      (∀ r ∈ mid.sldIdLst, findRel mid.rels r = findRel prs.rels r) := by
  obtain ⟨hnd, hcnt⟩ := hwf
  have hbnd : ∀ i ∈ (slidesToRemove prs slide_toggles).reverse, i < prs.sldIdLst.length := by
    intro i hi
    exact slidesToRemove_lt prs slide_toggles i (List.mem_reverse.mp hi)
  obtain ⟨out, h1, h2, h3, h4, h5, h6⟩ :=
    removeRev_ok (slidesToRemove prs slide_toggles).reverse prs
      (slidesToRemove_rev_sorted prs slide_toggles) hbnd hnd hcnt
  rw [List.length_reverse] at h2
  exact ⟨out, h1, h2, h3, h4, h5, h6⟩

/-- C2: a slide is marked for removal iff at least one of its tags maps to
`false` in the toggle map; a tag absent from the map is treated as `true`
(include), so a slide with no tags, or all of whose tags are absent from
the map, is never removed, and one tag mapped to `false` forces removal
regardless of the other tags. -/
theorem C2_selection_policy (slide_toggles : List (Str × Bool)) (tags : List Str) :
    (shouldRemove slide_toggles tags = true ↔
      ∃ t ∈ tags, dictFind slide_toggles t = some false) ∧
    shouldRemove slide_toggles [] = false ∧
    ((∀ t ∈ tags, dictFind slide_toggles t = none) →
      shouldRemove slide_toggles tags = false) := by
  have hiff : shouldRemove slide_toggles tags = true ↔
      ∃ t ∈ tags, dictFind slide_toggles t = some false := by
    unfold shouldRemove
    rw [List.any_eq_true]
    constructor
    · rintro ⟨t, ht, hv⟩
      refine ⟨t, ht, ?_⟩
      unfold dictGet at hv
      cases hd : dictFind slide_toggles t with
      | none => rw [hd] at hv; simp at hv
      | some b =>
        rw [hd] at hv
        cases b with
        | false => rfl
        | true => simp at hv
    · rintro ⟨t, ht, hv⟩
      refine ⟨t, ht, ?_⟩
      unfold dictGet
      rw [hv]
      rfl
  refine ⟨hiff, rfl, ?_⟩
  intro h
  cases hsr : shouldRemove slide_toggles tags with
  | false => rfl
  | true =>
    obtain ⟨t, ht, hv⟩ := hiff.mp hsr
    rw [h t ht] at hv
    exact Option.noConfusion hv

theorem C2_selection_policy_witness :
    shouldRemove [(['a'], false), (['b'], true)] [['b'], ['a']] = true ∧
      shouldRemove [(['a'], false)] [['b'], ['c']] = false :=
  ⟨(C2_selection_policy [(['a'], false), (['b'], true)] [['b'], ['a']]).1.mpr
      ⟨['a'], by decide, by decide⟩,
    (C2_selection_policy [(['a'], false)] [['b'], ['c']]).2.2 (by decide)⟩

theorem replaceRun_nil_replacements (r : Run) : replaceRun [] r = r := by
  unfold replaceRun
  by_cases h : r.text.isEmpty <;> simp [h]

theorem replace_placeholders_nil (tf : TextFrame) :
    replace_placeholders_in_text tf [] = tf := by
  unfold replace_placeholders_in_text
  have hpara : ∀ para : List Run, para.map (replaceRun []) = para := by
    intro para
    rw [List.map_congr_left (fun r _ => replaceRun_nil_replacements r), List.map_id']
  rw [List.map_congr_left (fun para _ => hpara para), List.map_id']

theorem substSlide_nil (s : Slide) : substSlide [] s = s := by
  unfold substSlide substShape
  have hsh : ∀ sh : Shape, Shape.mk (sh.tf.map (fun tf => replace_placeholders_in_text tf [])) = sh := by
    intro sh
    cases sh with
    | mk tfo =>
      cases tfo with
      | none => rfl
      | some tf => simp [replace_placeholders_nil tf]
  rw [List.map_congr_left (fun sh _ => hsh sh), List.map_id']
  cases s with
  | mk shapes notes =>
    cases notes with
    | none => rfl
    | some tf => simp [replace_placeholders_nil tf]

/-- C8: generating with an empty replacement map and an empty toggle map
returns the input package unchanged: no slide is removed and no run text is
altered, so slide count and all visible text are those of the template. -/
theorem C8_roundtrip_empty_maps (prs : Package) :
    generate_presentation prs [] [] = some prs := by
  have hsel : slidesToRemove prs [] = [] := by
    unfold slidesToRemove
    rw [List.filter_eq_nil_iff]
    intro i _
    unfold removeDecision
    cases slideAt prs i with
    | none => simp
    | some s => simp [shouldRemove, dictGet, dictFind]
  have hsub : substPass prs [] = prs := by
    unfold substPass
    have hp : ∀ p : Nat × Slide,
        (if p.1 ∈ prs.sldIdLst then (p.1, substSlide [] p.2) else p) = p := by
      intro p
      by_cases h : p.1 ∈ prs.sldIdLst
      · rw [if_pos h, substSlide_nil]
      · rw [if_neg h]
    rw [List.map_congr_left (fun p _ => hp p), List.map_id']
  unfold generate_presentation
  rw [hsel]
  show some (substPass prs []) = some prs
  rw [hsub]

theorem foldl_applyEntry_no_occ :
    ∀ (replacements : List (Str × Str)) (text : Str),
      (∀ kv ∈ replacements, occursIn kv.1 text = false) →
      replacements.foldl applyEntry text = text := by
  intro replacements
  induction replacements with
  | nil => intro text _; rfl
  | cons kv rest ih =>
    intro text h
    have h0 : occursIn kv.1 text = false := h kv (List.mem_cons_self kv rest)
    show rest.foldl applyEntry (applyEntry text kv) = text
    have ha : applyEntry text kv = text := by
      unfold applyEntry
      rw [h0]
      rfl
    rw [ha]
    exact ih text (fun kv2 hk => h kv2 (List.mem_cons_of_mem kv hk))

theorem replaceRun_no_occ (replacements : List (Str × Str)) (r : Run)
    (h : ∀ kv ∈ replacements, occursIn kv.1 r.text = false) :
    replaceRun replacements r = r := by
  unfold replaceRun
  by_cases he : r.text.isEmpty
  · rw [if_pos he]
  · rw [if_neg he, foldl_applyEntry_no_occ replacements r.text h]

theorem replace_placeholders_no_occ (tf : TextFrame) (replacements : List (Str × Str))
    (h : ∀ para ∈ tf.paragraphs, ∀ r ∈ para, ∀ kv ∈ replacements,
      occursIn kv.1 r.text = false) :
    replace_placeholders_in_text tf replacements = tf := by
  unfold replace_placeholders_in_text
  have hpara : ∀ para ∈ tf.paragraphs, para.map (replaceRun replacements) = para := by
    intro para hp
    rw [List.map_congr_left (fun r hr => replaceRun_no_occ replacements r (h para hp r hr)),
      List.map_id']
  rw [List.map_congr_left hpara, List.map_id']

/-- C3: for every run and every `(token, value)` entry, all (left-to-right,
non-overlapping) occurrences of the token in the run's current string are
replaced with the value; entries are applied sequentially to the updated
string in the stable insertion order of the map, so the `{A}` / `{B}`
scenario yields the single fixed output determined by that order. -/
theorem C3_substitution_semantics :
    (∀ old new s : Str, occursIn old s = false → pyReplace old new s = s) ∧
    (∀ old new s pre post : Str, old ≠ [] → splitFirst old s = some (pre, post) →
      s = pre ++ old ++ post ∧
      (∀ p q : Str, s = p ++ old ++ q → pre.length ≤ p.length) ∧
      pyReplace old new s = pre ++ new ++ pyReplace old new post) ∧
    (∀ old : Str, old ≠ [] → ∀ s : Str,
      (splitFirst old s = none ↔ occursIn old s = false)) ∧
    (∀ (text : Str) (kv : Str × Str) (rest : List (Str × Str)),
      (kv :: rest).foldl applyEntry text = rest.foldl applyEntry (applyEntry text kv)) ∧
    replaceRun [("{A}".toList, "{B}".toList), ("{B}".toList, ['X'])]
        { text := "{A} and {B}".toList, fmt := 7 } =
      { text := "X and X".toList, fmt := 7 } := by
  refine ⟨fun old new s => pyReplace_no_occurrence s, ?_,
    fun old hne s => splitFirst_none_iff hne s, fun text kv rest => rfl, by decide⟩
  intro old new s pre post hne hsf
  obtain ⟨h1, h2⟩ := splitFirst_some s pre post hsf
  exact ⟨h1, h2, pyReplace_splitFirst hne s pre post hsf⟩

theorem C3_substitution_semantics_witness :
    pyReplace ['a'] ['b'] ['x', 'y'] = ['x', 'y'] ∧
    pyReplace ['a'] ['b'] ['x', 'a', 'z'] = ['x'] ++ ['b'] ++ pyReplace ['a'] ['b'] ['z'] :=
  ⟨C3_substitution_semantics.1 ['a'] ['b'] ['x', 'y'] (by decide),
    (C3_substitution_semantics.2.1 ['a'] ['b'] ['x', 'a', 'z'] ['x'] ['z']
      (by decide) (by decide)).2.2⟩

/-- C4: substitution only rewrites run string contents: the paragraph count
and the runs-per-paragraph counts are unchanged, each run's formatting
metadata is unchanged, the new run list is the pointwise per-run rewrite
(so a placeholder spanning a run boundary is never substituted), and a run
containing no token of the map is identical before and after. -/
theorem C4_run_local_formatting (tf : TextFrame) (replacements : List (Str × Str)) :
    ((replace_placeholders_in_text tf replacements).paragraphs.map List.length =
      tf.paragraphs.map List.length) ∧
    ((replace_placeholders_in_text tf replacements).paragraphs =
      tf.paragraphs.map (fun para => para.map (replaceRun replacements))) ∧
    (∀ r : Run, (replaceRun replacements r).fmt = r.fmt) ∧
    (∀ r : Run, (∀ kv ∈ replacements, occursIn kv.1 r.text = false) →
      replaceRun replacements r = r) ∧
    ((∀ para ∈ tf.paragraphs, ∀ r ∈ para, ∀ kv ∈ replacements,
        occursIn kv.1 r.text = false) →
      replace_placeholders_in_text tf replacements = tf) := by
  refine ⟨?_, rfl, ?_, replaceRun_no_occ replacements, ?_⟩
  · show (tf.paragraphs.map (fun para => para.map (replaceRun replacements))).map
        List.length = tf.paragraphs.map List.length
    rw [List.map_map]
    exact List.map_congr_left (fun para _ => List.length_map _ _)
  · intro r
    unfold replaceRun
    by_cases he : r.text.isEmpty
    · rw [if_pos he]
    · rw [if_neg he]
  · exact replace_placeholders_no_occ tf replacements

theorem C4_run_local_formatting_witness :
    replaceRun [(['{', 'N', '}'], ['A'])] { text := ['h', 'i'], fmt := 3 } =
      { text := ['h', 'i'], fmt := 3 } ∧
    replace_placeholders_in_text
        { paragraphs := [[{ text := ['{', 'N'], fmt := 1 }, { text := ['}'], fmt := 2 }]] }
        [(['{', 'N', '}'], ['A'])] =
      { paragraphs := [[{ text := ['{', 'N'], fmt := 1 }, { text := ['}'], fmt := 2 }]] } :=
  ⟨(C4_run_local_formatting { paragraphs := [] } [(['{', 'N', '}'], ['A'])]).2.2.2.1
      { text := ['h', 'i'], fmt := 3 } (by decide),
    (C4_run_local_formatting
        { paragraphs := [[{ text := ['{', 'N'], fmt := 1 }, { text := ['}'], fmt := 2 }]] }
        [(['{', 'N', '}'], ['A'])]).2.2.2.2 (by decide)⟩

/-- C6: the indices to remove are computed in one pass against the original
pre-removal slide order (the decision at index `i` depends only on the
input package), collected in ascending order; the removal pass iterates
them reversed, i.e. strictly highest to lowest, and each step reads the
r:id at the index, drops its relationship entry, then deletes the slide-id
list entry. -/
theorem C6_remover_algorithm (prs : Package) (slide_toggles : List (Str × Bool))
    (replacements : List (Str × Str)) :
    (∀ i : Nat, i ∈ slidesToRemove prs slide_toggles ↔
      i < prs.sldIdLst.length ∧ removeDecision slide_toggles prs i = true) ∧
    (slidesToRemove prs slide_toggles).Pairwise (fun a b => a < b) ∧
    removePass prs (slidesToRemove prs slide_toggles) =
      removeRev prs (slidesToRemove prs slide_toggles).reverse ∧
    (slidesToRemove prs slide_toggles).reverse.Pairwise (fun a b => a > b) ∧
    (∀ (p : Package) (i rId : Nat), p.sldIdLst[i]? = some rId →
      removeSlideAt p i = (drop_rel p.rels rId).map
        (fun rels2 => { sldIdLst := p.sldIdLst.eraseIdx i, rels := rels2 })) ∧
    generate_presentation prs replacements slide_toggles =
      (removePass prs (slidesToRemove prs slide_toggles)).map
        (fun prs2 => substPass prs2 replacements) := by
  refine ⟨slidesToRemove_mem prs slide_toggles, slidesToRemove_sorted prs slide_toggles,
    rfl, slidesToRemove_rev_sorted prs slide_toggles, ?_, ?_⟩
  · intro p i rId h
    unfold removeSlideAt
    rw [h]
    show (match drop_rel p.rels rId with
      | none => none
      | some rels2 =>
        some ({ sldIdLst := p.sldIdLst.eraseIdx i, rels := rels2 } : Package)) = _
    cases drop_rel p.rels rId with
    | none => rfl
    | some rels2 => rfl
  · unfold generate_presentation
    cases removePass prs (slidesToRemove prs slide_toggles) with
    | none => rfl
    | some prs2 => rfl

theorem C6_remover_algorithm_witness :
    removeSlideAt exPrs 1 = (drop_rel exPrs.rels 20).map
      (fun rels2 => { sldIdLst := exPrs.sldIdLst.eraseIdx 1, rels := rels2 }) :=
  (C6_remover_algorithm exPrs exToggles exRepl).2.2.2.2.1 exPrs 1 20 (by decide)

/-- C7: on a well-formed package the out-of-bounds failure mode is
unreachable: the selection pass yields a strictly increasing list of
indices, each valid for the original slide list, and the
highest-to-lowest removal pass completes without any failed index or
relationship lookup. -/
theorem C7_removal_index_safety (prs : Package) (slide_toggles : List (Str × Bool))
    (hwf : WF prs) :
    (slidesToRemove prs slide_toggles).Pairwise (fun a b => a < b) ∧
    (∀ i ∈ slidesToRemove prs slide_toggles, i < prs.sldIdLst.length) ∧
    (removePass prs (slidesToRemove prs slide_toggles)).isSome = true := by
  obtain ⟨mid, hmid, -⟩ := removePass_ok prs slide_toggles hwf
  refine ⟨slidesToRemove_sorted prs slide_toggles, slidesToRemove_lt prs slide_toggles, ?_⟩
  rw [hmid]
  rfl

theorem C7_removal_index_safety_witness :
    WF exPrs ∧ (removePass exPrs (slidesToRemove exPrs exToggles)).isSome = true :=
  ⟨by decide, (C7_removal_index_safety exPrs exToggles (by decide)).2.2⟩

/-- C1: on a well-formed package, generation succeeds and the surviving
slide list is a subsequence of the original (relative order preserved),
its length is the original count minus the number of removed indices, and
every surviving slide identifier still resolves to exactly one
relationship entry. -/
theorem C1_removal_preserves_structure (prs : Package) (slide_toggles : List (Str × Bool))
    (replacements : List (Str × Str)) (hwf : WF prs) :
    ∃ out : Package, generate_presentation prs replacements slide_toggles = some out ∧
      out.sldIdLst.Sublist prs.sldIdLst ∧
      out.sldIdLst.length =
        prs.sldIdLst.length - (slidesToRemove prs slide_toggles).length ∧
      (∀ r ∈ out.sldIdLst, countKey out.rels r = 1) := by
  obtain ⟨mid, hmid, hlen, hsub, hnd, hcnt, hfind⟩ := removePass_ok prs slide_toggles hwf
  refine ⟨substPass mid replacements, ?_, hsub, hlen, ?_⟩
  · show (match removePass prs (slidesToRemove prs slide_toggles) with
      | none => none
      | some prs2 => some (substPass prs2 replacements)) = some (substPass mid replacements)
    rw [hmid]
  · intro r hr
    rw [countKey_substPass]
    exact hcnt r hr

theorem C1_removal_preserves_structure_witness :
    WF exPrs ∧
      ∃ out : Package, generate_presentation exPrs exRepl exToggles = some out ∧
        out.sldIdLst.Sublist exPrs.sldIdLst ∧
        out.sldIdLst.length =
          exPrs.sldIdLst.length - (slidesToRemove exPrs exToggles).length ∧
        (∀ r ∈ out.sldIdLst, countKey out.rels r = 1) :=
  ⟨by decide, C1_removal_preserves_structure exPrs exToggles exRepl (by decide)⟩

/-- C10: generation never strips control-tag markers from surviving
slides: every surviving slide resolves, in the output, to exactly the
input slide with only placeholder substitution applied, so its notes text
frame equals the input one with token substitution applied, and when no
token of the map occurs in any notes run the notes (tag markers included)
are unchanged. -/
theorem C10_notes_preserved (prs : Package) (replacements : List (Str × Str))
    (slide_toggles : List (Str × Bool)) (out : Package) (hwf : WF prs)
    (hgen : generate_presentation prs replacements slide_toggles = some out) :
    ∀ r ∈ out.sldIdLst, ∀ s : Slide, resolveSlide prs r = some s →
      resolveSlide out r = some (substSlide replacements s) ∧
      (substSlide replacements s).notes =
        s.notes.map (fun tf => replace_placeholders_in_text tf replacements) ∧
      ((∀ tf : TextFrame, s.notes = some tf →
          ∀ para ∈ tf.paragraphs, ∀ run ∈ para, ∀ kv ∈ replacements,
            occursIn kv.1 run.text = false) →
        (substSlide replacements s).notes = s.notes) := by
  obtain ⟨mid, hmid, hlen, hsub, hnd, hcnt, hfind⟩ := removePass_ok prs slide_toggles hwf
  have hout : out = substPass mid replacements := by
    unfold generate_presentation at hgen
    rw [hmid] at hgen
    exact (Option.some_inj.mp hgen).symm
  subst hout
  intro r hr s hres
  have hrmid : r ∈ mid.sldIdLst := hr
  refine ⟨?_, rfl, ?_⟩
  · unfold resolveSlide
    rw [findRel_substPass, hfind r hrmid]
    unfold resolveSlide at hres
    cases hfe : findRel prs.rels r with
    | none => rw [hfe] at hres; simp at hres
    | some e =>
      rw [hfe] at hres
      have hes : e.2 = s := by simpa using hres
      have he1 : e.1 = r := by
        have hp := List.find?_some hfe
        exact beq_iff_eq.mp hp
      simp only [Option.map_some']
      rw [he1, if_pos hrmid, hes]
  · intro hno
    show s.notes.map (fun tf => replace_placeholders_in_text tf replacements) = s.notes
    cases hsn : s.notes with
    | none => rfl
    | some tf =>
      simp only [Option.map_some']
      rw [replace_placeholders_no_occ tf replacements (hno tf hsn)]

theorem C10_notes_preserved_witness :
    (substSlide exRepl exSlide3).notes = exSlide3.notes ∧
      resolveSlide exOut 30 = some (substSlide exRepl exSlide3) :=
  have h := C10_notes_preserved exPrs exRepl exToggles exOut (by decide) (by decide)
    30 (by decide) exSlide3 (by decide)
  ⟨h.2.2 (by decide), h.1⟩

/-- C9: generation from a byte source is all-or-nothing: a malformed
source fails with the loader's `MalformedPackage` error propagated and no
output; a successful result can only arise from a loaded package on which
the whole pipeline ran to completion; and for a loaded package the request
either returns the full pipeline's output or an error with no output. -/
theorem C9_all_or_nothing (src : ByteSource) (replacements : List (Str × Str))
    (slide_toggles : List (Str × Bool)) :
    (∀ e : MalformedPackage, load src = Except.error e →
      generate_from_bytes src replacements slide_toggles =
        Except.error (GenFailure.malformed e)) ∧
    (∀ out : Package, generate_from_bytes src replacements slide_toggles = Except.ok out →
      ∃ prs : Package, load src = Except.ok prs ∧
        generate_presentation prs replacements slide_toggles = some out) ∧
    (∀ prs : Package, load src = Except.ok prs →
      (∃ out : Package,
        generate_presentation prs replacements slide_toggles = some out ∧
        generate_from_bytes src replacements slide_toggles = Except.ok out) ∨
      (generate_presentation prs replacements slide_toggles = none ∧
        generate_from_bytes src replacements slide_toggles =
          Except.error GenFailure.invariantViolation)) := by
  refine ⟨?_, ?_, ?_⟩
  · intro e he
    unfold generate_from_bytes
    rw [he]
  · intro out hout
    unfold generate_from_bytes at hout
    split at hout
    next e heq => simp at hout
    next prs2 heq =>
      refine ⟨prs2, heq, ?_⟩
      split at hout
      next hg => simp at hout
      next o hg =>
        injection hout with h
        rw [hg, h]
  · intro prs hl
    have hgb : generate_from_bytes src replacements slide_toggles =
        (match generate_presentation prs replacements slide_toggles with
          | none => Except.error GenFailure.invariantViolation
          | some o => Except.ok o) := by
      unfold generate_from_bytes
      rw [hl]
    cases hg : generate_presentation prs replacements slide_toggles with
    | none =>
      rw [hg] at hgb
      right
      exact ⟨rfl, hgb⟩
    | some o =>
      rw [hg] at hgb
      left
      exact ⟨o, rfl, hgb⟩

theorem C9_all_or_nothing_witness :
    generate_from_bytes ByteSource.malformed [] [] =
      Except.error (GenFailure.malformed MalformedPackage.malformedPackage) ∧
    ∃ prs : Package, load (ByteSource.valid exPrs) = Except.ok prs ∧
      generate_presentation prs [] [] = some exPrs :=
  ⟨(C9_all_or_nothing ByteSource.malformed [] []).1 MalformedPackage.malformedPackage rfl,
    (C9_all_or_nothing (ByteSource.valid exPrs) [] []).2.1 exPrs (by rfl)⟩

theorem gst_cons_noopen (c : Char) (cs : Str)
    (hop : tagOpen.isPrefixOf (c :: cs) = false) :
    get_slide_tags (c :: cs) = get_slide_tags cs := by
  rw [get_slide_tags_cons, if_neg (by simp [hop])]

theorem gst_cons_skip (c : Char) (cs : Str)
    (hop : tagOpen.isPrefixOf (c :: cs) = true)
    (hskip : (takeWord ((c :: cs).drop tagOpen.length)).1 = [] ∨
      tagClose.isPrefixOf ((takeWord ((c :: cs).drop tagOpen.length)).2) = false) :
    get_slide_tags (c :: cs) = get_slide_tags cs := by
  rw [get_slide_tags_cons, if_pos hop]
  rcases hskip with h | h
  · simp only [h, List.isEmpty_nil, if_true]
  · by_cases hu : (takeWord ((c :: cs).drop tagOpen.length)).1 = []
    · simp only [hu, List.isEmpty_nil, if_true]
    · simp only [isEmpty_false_of_ne_nil hu, Bool.false_eq_true, if_false, h]

theorem gst_cons_match (c : Char) (cs : Str)
    (hop : tagOpen.isPrefixOf (c :: cs) = true)
    (hu : (takeWord ((c :: cs).drop tagOpen.length)).1 ≠ [])
    (hcl : tagClose.isPrefixOf ((takeWord ((c :: cs).drop tagOpen.length)).2) = true) :
    get_slide_tags (c :: cs) =
      (takeWord ((c :: cs).drop tagOpen.length)).1 ::
        get_slide_tags
          ((takeWord ((c :: cs).drop tagOpen.length)).2.drop tagClose.length) := by
  rw [get_slide_tags_cons, if_pos hop]
  simp only [isEmpty_false_of_ne_nil hu, Bool.false_eq_true, if_false, hcl, if_true]

theorem gst_char_nil (w : Str) :
    w ∈ get_slide_tags [] ↔
      w ≠ [] ∧ (∀ c ∈ w, isTagChar c = true) ∧ Occurs (tagOpen ++ w ++ tagClose) [] := by
  constructor
  · intro h
    exact absurd h (by simp [get_slide_tags_nil])
  · rintro ⟨-, -, p, q, hocc⟩
    exfalso
    have := congrArg List.length hocc
    simp only [List.length_nil, List.length_append, tagOpen, tagClose,
      List.length_cons] at this
    omega

theorem word_unique : ∀ u w x y : Str,
    (∀ c ∈ u, isTagChar c = true) → (∀ c ∈ w, isTagChar c = true) →
    u ++ ']' :: x = w ++ ']' :: y → u = w := by
  intro u
  induction u with
  | nil =>
    intro w x y _ hw h
    cases w with
    | nil => rfl
    | cons d ws =>
      exfalso
      simp only [List.nil_append, List.cons_append, List.cons.injEq] at h
      have hd : isTagChar d = true := hw d (List.mem_cons_self d ws)
      rw [← h.1] at hd
      exact absurd hd (by decide)
  | cons a us ih =>
    intro w x y hu hw h
    cases w with
    | nil =>
      exfalso
      simp only [List.cons_append, List.nil_append, List.cons.injEq] at h
      have ha : isTagChar a = true := hu a (List.mem_cons_self a us)
      rw [h.1] at ha
      exact absurd ha (by decide)
    | cons d ws =>
      simp only [List.cons_append, List.cons.injEq] at h
      have hrest : us = ws :=
        ih ws x y (fun c hc => hu c (List.mem_cons_of_mem a hc))
          (fun c hc => hw c (List.mem_cons_of_mem d hc)) h.2
      rw [h.1, hrest]

theorem no_open_in_clean : ∀ m : Str, (∀ c ∈ m, c ≠ '[') →
    ∀ r p q : Str, m ++ r = p ++ '[' :: q → ∃ p2, p = m ++ p2 ∧ r = p2 ++ '[' :: q := by
  intro m
  induction m with
  | nil =>
    intro _ r p q h
    exact ⟨p, rfl, by simpa using h⟩
  | cons d ms ih =>
    intro hm r p q h
    cases p with
    | nil =>
      exfalso
      simp only [List.nil_append, List.cons_append, List.cons.injEq] at h
      exact hm d (List.mem_cons_self d ms) h.1
    | cons e ps =>
      simp only [List.cons_append, List.cons.injEq] at h
      obtain ⟨p2, hp, hr⟩ := ih (fun c hc => hm c (List.mem_cons_of_mem d hc)) r ps q h.2
      refine ⟨p2, ?_, hr⟩
      rw [List.cons_append, ← h.1, hp]

theorem occurs_in_tail (u w t p q : Str) (hu : ∀ c ∈ u, isTagChar c = true)
    (hp : p ≠ [])
    (h : ('[' :: '[' :: 't' :: 'a' :: 'g' :: ':' :: (u ++ ']' :: ']' :: t) : Str)
      = p ++ '[' :: '[' :: 't' :: 'a' :: 'g' :: ':' :: (w ++ ']' :: ']' :: q)) :
    ∃ p4 : Str, t = p4 ++ '[' :: '[' :: 't' :: 'a' :: 'g' :: ':' :: (w ++ ']' :: ']' :: q) := by
  cases p with
  | nil => exact absurd rfl hp
  | cons d p1 =>
    simp only [List.cons_append, List.cons.injEq] at h
    obtain ⟨-, h⟩ := h
    cases p1 with
    | nil =>
      exfalso
      simp only [List.nil_append, List.cons.injEq] at h
      exact absurd h.2.1 (by decide)
    | cons e p2 =>
      simp only [List.cons_append, List.cons.injEq] at h
      obtain ⟨-, h⟩ := h
      have hm : ('t' :: 'a' :: 'g' :: ':' :: (u ++ ']' :: ']' :: t) : Str)
          = ('t' :: 'a' :: 'g' :: ':' :: (u ++ [']'])) ++ (']' :: t) := by
        simp [List.append_assoc]
      rw [hm] at h
      have hclean : ∀ c ∈ ('t' :: 'a' :: 'g' :: ':' :: (u ++ ([']'] : Str)) : Str),
          c ≠ '[' := by
        intro c hc
        simp only [List.mem_cons, List.mem_append, List.mem_singleton,
          List.not_mem_nil, or_false] at hc
        rcases hc with rfl | rfl | rfl | rfl | hc | rfl
        · decide
        · decide
        · decide
        · decide
        · intro hceq
          have hcw := hu c hc
          rw [hceq] at hcw
          exact absurd hcw (by decide)
        · decide
      obtain ⟨p3, -, hr⟩ := no_open_in_clean _ hclean (']' :: t) p2
        ('[' :: 't' :: 'a' :: 'g' :: ':' :: (w ++ ']' :: ']' :: q)) h
      cases p3 with
      | nil =>
        exfalso
        simp only [List.nil_append, List.cons.injEq] at hr
        exact absurd hr.1 (by decide)
      | cons f p4 =>
        simp only [List.cons_append, List.cons.injEq] at hr
        exact ⟨p4, hr.2⟩

theorem gst_characterization_aux :
    ∀ n : Nat, ∀ s : Str, s.length ≤ n → ∀ w : Str,
      (w ∈ get_slide_tags s ↔
        w ≠ [] ∧ (∀ c ∈ w, isTagChar c = true) ∧ Occurs (tagOpen ++ w ++ tagClose) s) := by
  intro n
  induction n with
  | zero =>
    intro s hs w
    obtain rfl := List.length_eq_zero.mp (Nat.le_zero.mp hs)
    exact gst_char_nil w
  | succ n ih =>
    intro s hs w
    cases s with
    | nil => exact gst_char_nil w
    | cons c cs =>
      have hcs : cs.length ≤ n := by
        simp only [List.length_cons] at hs
        omega
      by_cases hop : tagOpen.isPrefixOf (c :: cs)
      · obtain ⟨x, hx⟩ := isPrefixOf_iff_ex.mp hop
        have hx6 : (c :: cs).drop tagOpen.length = x := by
          rw [hx, List.drop_left]
        have hxlen : x.length ≤ cs.length := by
          have hl := congrArg List.length hx
          simp only [List.length_cons, List.length_append, tagOpen] at hl
          omega
        by_cases hmatch : (takeWord x).1 ≠ [] ∧ tagClose.isPrefixOf (takeWord x).2
        · obtain ⟨hu0, hcl0⟩ := hmatch
          obtain ⟨u, r, hur⟩ : ∃ u r, takeWord x = (u, r) := ⟨_, _, rfl⟩
          have htw1 : (takeWord x).1 = u := by rw [hur]
          have htw2 : (takeWord x).2 = r := by rw [hur]
          rw [htw1] at hu0
          rw [htw2] at hcl0
          obtain ⟨t', ht'⟩ := isPrefixOf_iff_ex.mp hcl0
          have ht2 : (takeWord x).2.drop tagClose.length = t' := by
            rw [htw2, ht', List.drop_left]
          have hxsplit : x = u ++ (tagClose ++ t') := by
            rw [← ht']
            have h0 := takeWord_append x
            rw [htw1, htw2] at h0
            exact h0.symm
          have ht'len : t'.length ≤ n := by
            have h1 := takeWord_snd_length x
            rw [htw2] at h1
            have h2 := congrArg List.length ht'
            simp only [List.length_append, tagClose, List.length_cons,
              List.length_nil] at h2
            omega
          have huw : ∀ ch ∈ u, isTagChar ch = true := by
            have h0 := takeWord_fst_tagChar x
            rw [htw1] at h0
            exact h0
          have hrw : get_slide_tags (c :: cs) = u :: get_slide_tags t' := by
            rw [gst_cons_match c cs hop (by rw [hx6, htw1]; exact hu0)
                (by rw [hx6, htw2]; exact hcl0),
              hx6, htw1, ht2]
          have hs_struct : (c :: cs : Str) = tagOpen ++ (u ++ (']' :: ']' :: t')) := by
            rw [hx, hxsplit]
            simp [tagClose]
          rw [hrw]
          constructor
          · intro hmem
            rcases List.mem_cons.mp hmem with rfl | hmem2
            · refine ⟨hu0, huw, [], t', ?_⟩
              rw [hs_struct]
              simp [tagClose, List.append_assoc]
            · obtain ⟨hne, hword, p, q, hocc⟩ := (ih t' ht'len w).mp hmem2
              refine ⟨hne, hword, tagOpen ++ u ++ ']' :: ']' :: p, q, ?_⟩
              rw [hs_struct, hocc]
              simp [List.append_assoc]
          · rintro ⟨hne, hword, p, q, hocc⟩
            cases p with
            | nil =>
              rw [hs_struct] at hocc
              simp only [List.nil_append] at hocc
              have hcanc0 : tagOpen ++ (u ++ ']' :: ']' :: t')
                  = tagOpen ++ (w ++ ']' :: ']' :: q) := by
                rw [hocc]
                simp [tagClose, List.append_assoc]
              have hcanc : u ++ ']' :: ']' :: t' = w ++ ']' :: ']' :: q :=
                List.append_cancel_left hcanc0
              have hweq : u = w :=
                word_unique u w (']' :: t') (']' :: q) huw hword hcanc
              rw [← hweq]
              exact List.mem_cons_self _ _
            | cons d ds =>
              rw [hs_struct] at hocc
              have hconv : ('[' :: '[' :: 't' :: 'a' :: 'g' :: ':'
                    :: (u ++ ']' :: ']' :: t') : Str)
                  = (d :: ds) ++ '[' :: '[' :: 't' :: 'a' :: 'g' :: ':'
                    :: (w ++ ']' :: ']' :: q) := by
                simpa [tagOpen, tagClose, List.append_assoc, List.cons_append] using hocc
              obtain ⟨p4, hp4⟩ := occurs_in_tail u w t' (d :: ds) q huw
                (by simp) hconv
              refine List.mem_cons_of_mem _ ((ih t' ht'len w).mpr ⟨hne, hword, p4, q, ?_⟩)
              rw [hp4]
              simp [tagOpen, tagClose, List.append_assoc, List.cons_append]
        · have hrw : get_slide_tags (c :: cs) = get_slide_tags cs := by
            rcases not_and_or.mp hmatch with h | h
            · exact gst_cons_skip c cs hop (Or.inl (by rw [hx6]; exact not_ne_iff.mp h))
            · exact gst_cons_skip c cs hop (Or.inr (by rw [hx6]; exact Bool.eq_false_iff.mpr h))
          rw [hrw]
          constructor
          · intro hmem
            obtain ⟨hne, hword, p, q, hocc⟩ := (ih cs hcs w).mp hmem
            exact ⟨hne, hword, c :: p, q, by simp [hocc, List.cons_append]⟩
          · rintro ⟨hne, hword, p, q, hocc⟩
            cases p with
            | nil =>
              exfalso
              simp only [List.nil_append] at hocc
              have hxeq0 : tagOpen ++ x = tagOpen ++ (w ++ (']' :: ']' :: q)) := by
                rw [← hx, hocc]
                simp [tagOpen, tagClose, List.append_assoc]
              have hxeq : x = w ++ (']' :: ']' :: q) := List.append_cancel_left hxeq0
              have htw : takeWord x = (w, ']' :: ']' :: q) := by
                rw [hxeq]
                refine takeWord_exact w hword (']' :: ']' :: q) ?_
                intro d t hdt
                injection hdt with h1 _
                rw [← h1]
                decide
              apply hmatch
              constructor
              · rw [htw]
                exact hne
              · rw [htw]
                exact isPrefixOf_iff_ex.mpr ⟨q, by simp [tagClose]⟩
            | cons d ds =>
              have hocc2 : cs = ds ++ (tagOpen ++ w ++ tagClose) ++ q := by
                simp only [List.cons_append, List.cons.injEq] at hocc
                exact hocc.2
              exact (ih cs hcs w).mpr ⟨hne, hword, ds, q, hocc2⟩
      · have hrw : get_slide_tags (c :: cs) = get_slide_tags cs :=
          gst_cons_noopen c cs (Bool.eq_false_iff.mpr hop)
        rw [hrw]
        constructor
        · intro hmem
          obtain ⟨hne, hword, p, q, hocc⟩ := (ih cs hcs w).mp hmem
          exact ⟨hne, hword, c :: p, q, by simp [hocc, List.cons_append]⟩
        · rintro ⟨hne, hword, p, q, hocc⟩
          cases p with
          | nil =>
            exfalso
            apply hop
            simp only [List.nil_append] at hocc
            refine isPrefixOf_iff_ex.mpr ⟨w ++ tagClose ++ q, ?_⟩
            rw [hocc]
            simp [List.append_assoc]
          | cons d ds =>
            have hocc2 : cs = ds ++ (tagOpen ++ w ++ tagClose) ++ q := by
              simp only [List.cons_append, List.cons.injEq] at hocc
              exact hocc.2
            exact (ih cs hcs w).mpr ⟨hne, hword, ds, q, hocc2⟩

/-- C5 (amended): `get_slide_tags` returns the list of identifiers of
substrings of the exact form `[[tag:IDENTIFIER]]` (IDENTIFIER matching
`[A-Za-z0-9_]+`) in occurrence order, duplicates retained; an identifier is
returned iff such a substring occurs in the notes text, empty notes yield
the empty list, and non-matching bracket sequences are not extracted and
raise no error. -/
theorem C5_tag_extraction (s w : Str) :
    get_slide_tags [] = [] ∧
    (w ∈ get_slide_tags s ↔
      w ≠ [] ∧ (∀ c ∈ w, isTagChar c = true) ∧ Occurs (tagOpen ++ w ++ tagClose) s) :=
  ⟨rfl, gst_characterization_aux s.length s le_rfl w⟩

theorem C5_tag_extraction_witness :
    ['a'] ∈ get_slide_tags "x[[tag:a]]y".toList :=
  (C5_tag_extraction "x[[tag:a]]y".toList ['a']).2.mpr
    ⟨by decide, by decide, ['x'], ['y'], by decide⟩

/-- C5 counterexample: the code returns a list in which duplicate
occurrences of the same identifier are NOT collapsed to one element, so
extraction does not return a set: on notes text containing the same tag
twice the result has two (equal) entries, not one. -/
theorem C5_tag_extraction_counterexample :
    get_slide_tags "[[tag:a]][[tag:a]]".toList = [['a'], ['a']] ∧
      (get_slide_tags "[[tag:a]][[tag:a]]".toList).length ≠ 1 := by
  constructor
  · decide
  · decide

end Proposal
